import Mathlib

/-!
Verification of the Einstein-expansion core (`autofd/equations.py`) and the
constituent-relation scheduler (`opensbli/core/opensbliequations.py`).

Index symbols (`sympy.Idx`) are modelled as natural numbers; scalar
sub-expressions as elements of a commutative ring `α`.  The dense
N-dimensional arrays produced by materialization are modelled as a shape
together with a total indexing function.  The vendored array module
(`autofd/array.py`: `tensorproduct`, `tensorcontraction`, elementwise
arithmetic, `__getitem__`) is part of the repository but absent from the
provided sources, so those operations are modelled from the spec (sections
4.2/4.3) and marked as such below.
-/

namespace Autofd

/-- Error kinds raised by the expansion core.  Each constructor corresponds
to one concrete Python raise site (or a Python-level `TypeError` /
`AttributeError` that a call would produce). -/
inductive Err where
  /-- In `get_Add_indices`: `ValueError("NOT ALL INDICES MATCH in ADD terms")`. -/
  | addSetMismatch
  /-- In `get_Add_indices`: `set(None)` raises `TypeError` when an addend has no
  index structure while another does. -/
  | setOfNone
  /-- In `get_Pow_indices` / `evaluate_Pow_expression`: `ValueError` for an
  `Indexed` object inside an exponent. -/
  | indexedExponent
  /-- In `get_Pow_indices` / `evaluate_Pow_expression`: `NotImplementedError` for
  an indexed base raised to a power other than 2. -/
  | powNotTwo
  /-- In `add_args`: `ValueError("IMPLEMNT this in add_args")`. -/
  | addArgsMismatch
  /-- In `add_args`: `None.reverse()` raises `AttributeError` when one addend is
  scalar and the leading one is indexed. -/
  | reverseNone
  /-- Indexing a scalar SymPy expression (`evaluated_rhs[ind]` when the rhs
  evaluated to a scalar) raises `TypeError`. -/
  | notSubscriptable
  /-- Array `__getitem__` with the wrong number of axes. -/
  | wrongRank
  /-- Array `__getitem__` with an index outside the axis bound. -/
  | outOfBounds
  /-- An operation applied to a value of a shape the Python code would crash
  on (internal contract violation). -/
  | internalErr
  /-- In `sort_dictionary`: the raise after `iter_count` exceeds 1000. -/
  | sortCap
  deriving DecidableEq

variable {α : Type} [CommRing α]

/-- Modelled from the spec: a dense N-dimensional array (the vendored
`MutableDenseNDimArray`), a mapping from index tuples to scalar
sub-expressions. -/
structure NArr (α : Type) where
  shape : List Nat
  data : List Nat → α

/-- An evaluation result in the source is either a scalar SymPy expression or
an N-dimensional array. -/
inductive SVal (α : Type) where
  | scalar (v : α)
  | arr (A : NArr α)

/-- Function `remove_repeated_index` (equations.py lines 685-693): keep exactly the
index symbols occurring once (`sum_index[x]` counts occurrences minus one and
an index is kept iff that count is zero). -/
def remove_repeated_index (listofind : List Nat) : List Nat :=
  listofind.filter (fun x => listofind.count x == 1)

/-- Sum of `f 0 + ... + f (n-1)`, the scalar produced by summing an array
axis of extent `n`. -/
def sumOver (n : Nat) (f : Nat → α) : α :=
  ((List.range n).map f).sum

/-- Positions (0-based) at which `x` occurs in `t`, starting from offset `i`:
the `match` tuple `[i for i, y in enumerate(tensor_indices) if y == index]`
of `apply_contraction_indexed`. -/
def posOfAux (x : Nat) : List Nat → Nat → List Nat
  | [], _ => []
  | y :: ys, i => if y = x then i :: posOfAux x ys (i + 1) else posOfAux x ys (i + 1)

def posOf (t : List Nat) (x : Nat) : List Nat := posOfAux x t 0

/-- Rebuild a full index tuple of length `n` from a reduced tuple `ix`: the
positions in `axes` take the summation variable `k`, the remaining positions
consume `ix` left to right. -/
def fillIx (axes : List Nat) (k : Nat) : Nat → Nat → List Nat → List Nat
  | _, 0, _ => []
  | p, n + 1, ix =>
    if axes.contains p then k :: fillIx axes k (p + 1) n ix
    else ix.headD 0 :: fillIx axes k (p + 1) n ix.tail

/-- The shape left after deleting the axes in `axes`. -/
def removeAxes (shape : List Nat) (axes : List Nat) : List Nat :=
  ((List.range shape.length).filter (fun i => !(axes.contains i))).map
    (fun i => shape.getD i 0)

/-- Modelled from the spec: `tensorcontraction` of the vendored array module
over one tuple of axes — sum the joint diagonal of those axes; when all axes
are consumed the result collapses to a scalar. -/
def contractOne (A : NArr α) (axes : List Nat) : SVal α :=
  let newShape := removeAxes A.shape axes
  let bound := A.shape.getD (axes.headD 0) 0
  let dataF : List Nat → α :=
    fun ix => sumOver bound (fun k => A.data (fillIx axes k 0 A.shape.length ix))
  match newShape with
  | [] => .scalar (dataF [])
  | s :: ss => .arr ⟨s :: ss, dataF⟩

/-- The set of indices to contract: `set(tensor_indices).difference(set(outer_indices))`
(`apply_contraction_indexed`).  Python set iteration order is unspecified;
we fix one deduplication order, which only affects the order in which the
(commuting) contractions are applied. -/
def contractList (outer t : List Nat) : List Nat :=
  (t.filter (fun x => !(outer.contains x))).dedup

/-- The loop body of `apply_contraction_indexed` (lines 620-628): contract
one repeated index at a time, dropping its occurrences from the running
`tensor_indices`.  Contracting a scalar would crash in Python
(`internalErr`). -/
def contractGo : List Nat → List Nat → SVal α → Except Err (SVal α)
  | [], _, v => .ok v
  | x :: xs, t, v =>
    match v with
    | .scalar _ => .error .internalErr
    | .arr A => contractGo xs (t.filter (fun y => !(y == x))) (contractOne A (posOf t x))

/-- Function `apply_contraction_indexed(outer_indices, tensor_indices, array)`
(equations.py lines 620-628). -/
def apply_contraction_indexed (outer t : List Nat) (v : SVal α) : Except Err (SVal α) :=
  contractGo (contractList outer t) t v

/-- Modelled from the spec: `tensorproduct` of the vendored array module —
scalars multiply through, arrays form the outer product with concatenated
shapes. -/
def tensorproduct : SVal α → SVal α → SVal α
  | .scalar a, .scalar b => .scalar (a * b)
  | .scalar a, .arr B => .arr ⟨B.shape, fun ix => a * B.data ix⟩
  | .arr A, .scalar b => .arr ⟨A.shape, fun ix => A.data ix * b⟩
  | .arr A, .arr B =>
    .arr ⟨A.shape ++ B.shape,
      fun ix => A.data (ix.take A.shape.length) * B.data (ix.drop A.shape.length)⟩

/-- Modelled from the spec: elementwise addition (`evaluated + arg` on two
arrays of identical shape, or on two scalars).  Adding a scalar to an array
would crash in Python. -/
def svalAddEq : SVal α → SVal α → Except Err (SVal α)
  | .scalar a, .scalar b => .ok (.scalar (a + b))
  | .arr A, .arr B => .ok (.arr ⟨A.shape, fun ix => A.data ix + B.data ix⟩)
  | _, _ => .error .internalErr

/-- Swap the first two components of an index tuple: the `transpose` tuple
`(index[1], index[0])` in `add_args`. -/
def swap2 (ix : List Nat) : List Nat := [ix.getD 1 0, ix.getD 0 0]

/-- The rank-2 transposed addition loop of `add_args` (lines 594-597):
`evaluated[index] = evaluated[index] + arr[transpose]`. -/
def svalAddTrans : SVal α → SVal α → Except Err (SVal α)
  | .arr A, .arr B => .ok (.arr ⟨A.shape, fun ix => A.data ix + B.data (swap2 ix)⟩)
  | _, _ => .error .internalErr

/-- Modelled from the spec: elementwise square, `evaluated**2` on an array
(or on a scalar). -/
def svalPow2 : SVal α → SVal α
  | .scalar a => .scalar (a ^ 2)
  | .arr A => .arr ⟨A.shape, fun ix => A.data ix ^ 2⟩

/-- Evaluation of `Pow(evaluated, e)` on a scalar base. -/
def svalPowE (e : Nat) : SVal α → SVal α
  | .scalar a => .scalar (a ^ e)
  | .arr A => .arr ⟨A.shape, fun ix => A.data ix ^ e⟩

/-- Function `get_Mul_indices` (lines 502-509): drop the `None` child structures,
concatenate the rest, remove indices occurring twice, and return `None` when
nothing survives.  Note the source never raises here. -/
def get_Mul_indices (inds : List (Option (List Nat))) : Option (List Nat) :=
  let fin := remove_repeated_index (inds.filterMap id).flatten
  if fin = [] then none else some fin

/-- Python `set(a) == set(b)` on two index lists. -/
def setEqB (a b : List Nat) : Bool :=
  a.all (fun x => b.contains x) && b.all (fun x => a.contains x)

/-- Left-to-right evaluation of `[set(x) == set(inds[0]) for x in inds[1:]]`:
`set(None)` raises `TypeError`; otherwise conjoin the set comparisons. -/
def checkAddSets (first : Option (List Nat)) :
    List (Option (List Nat)) → Except Err Bool
  | [] => .ok true
  | x :: xs =>
    match first, x with
    | some fl, some xl => do
      let b ← checkAddSets first xs
      .ok (setEqB xl fl && b)
    | _, _ => .error .setOfNone

/-- Function `get_Add_indices` (lines 512-523): all addends must share one index set;
the first addend's order is the result; disagreement raises. -/
def get_Add_indices (inds : List (Option (List Nat))) : Except Err (Option (List Nat)) :=
  if inds.all (fun o => o.isNone) then .ok none
  else
    match inds with
    | [] => .ok none
    | first :: rest => do
      let b ← checkAddSets first rest
      if b then .ok first else .error .addSetMismatch

/-- The expression tree handed to `evaluate_expression` after every
`EinsteinTerm` has been replaced (via `indexed_dict`) by its placeholder:
scalar atoms carry their value, `Indexed` leaves carry their index list and
the materialized array from the `arrays` dictionary, and `Pow` records
whether the exponent contains `Indexed` sub-terms.  Exponents are modelled
as naturals. -/
inductive Ex (α : Type) where
  | scal (v : α)
  | idx (inds : List Nat) (A : NArr α)
  | add (args : List (Ex α))
  | mul (args : List (Ex α))
  | pow (base : Ex α) (e : Nat) (expHasIndexed : Bool)

/-! `get_index_structure` (lines 481-499) together with its helpers, by
structural recursion over the expression. -/
mutual

def get_index_structure : Ex α → Except Err (Option (List Nat))
  | .scal _ => .ok none
  | .idx inds _ => .ok (some (remove_repeated_index inds))
  | .mul args => do
    let l ← gis_list args
    .ok (get_Mul_indices l)
  | .add args => do
    let l ← gis_list args
    get_Add_indices l
  | .pow b _e hIdx =>
    if hIdx then .error .indexedExponent
    else do
      let bs ← get_index_structure b
      match bs with
      | some _ => if _e = 2 then .ok none else .error .powNotTwo
      | none => .ok none

def gis_list : List (Ex α) → Except Err (List (Option (List Nat)))
  | [] => .ok []
  | x :: xs => do
    let a ← get_index_structure x
    let rest ← gis_list xs
    .ok (a :: rest)

end

/-- The fold inside `evaluate_MUL_expression` (lines 603-617): running
tensor product and concatenated index list. -/
def mulFold (rs : List (SVal α × Option (List Nat))) : SVal α × List Nat :=
  rs.foldl (fun acc r => (tensorproduct acc.1 r.1, acc.2 ++ r.2.getD [])) (.scalar 1, [])

/-- Function `evaluate_MUL_expression` given the already-evaluated factors. -/
def evaluate_MUL_expression (rs : List (SVal α × Option (List Nat))) :
    Except Err (SVal α × Option (List Nat)) :=
  let folded := mulFold rs
  let indices := remove_repeated_index folded.2
  do
    let v ← apply_contraction_indexed indices folded.2 folded.1
    .ok (v, if indices = [] then none else some indices)

/-- The scalar branch of `add_args`: fold `evaluated = evaluated + arg`. -/
def sumScalars (acc : SVal α) : List (SVal α) → Except Err (SVal α)
  | [] => .ok acc
  | v :: vs => do
    let a ← svalAddEq acc v
    sumScalars a vs

/-- The main loop of `add_args` (lines 583-600).  `lead` is the first
addend's index order; a later addend must match it exactly, or be its exact
reverse at rank 2 (then it is transposed before adding); `None.reverse()`
raises `AttributeError`, everything else raises `ValueError`. -/
def addLoop (lead : Option (List Nat)) :
    SVal α → List (SVal α × Option (List Nat)) → Except Err (SVal α × Option (List Nat))
  | ev, [] => .ok (ev, lead)
  | ev, (v, ind) :: rest =>
    if ind = lead then do
      let e2 ← svalAddEq ev v
      addLoop lead e2 rest
    else
      match ind with
      | none => .error .reverseNone
      | some il =>
        if lead = some il.reverse ∧ il.length = 2 then do
          let e2 ← svalAddTrans ev v
          addLoop lead e2 rest
        else .error .addArgsMismatch

/-- Function `add_args(arg_evals, arg_indices)` (lines 573-600). -/
def add_args (rs : List (SVal α × Option (List Nat))) :
    Except Err (SVal α × Option (List Nat)) :=
  match rs with
  | [] => .error .internalErr
  | [x] => .ok x
  | first :: rest =>
    if (first :: rest).all (fun r => r.2.isNone) then
      (sumScalars first.1 (rest.map (fun r => r.1))).map (fun v => (v, first.2))
    else addLoop first.2 first.1 rest

/-! `evaluate_Indexed_expression` (lines 659-682) with
`evaluate_MUL_expression`, `evaluate_ADD_expression` and
`evaluate_Pow_expression` folded in.  The `index_struc` parameter of the
source is dead (each branch derives its own indices) and is omitted. -/
mutual

def evaluate_Indexed_expression : Ex α → Except Err (SVal α × Option (List Nat))
  | .scal v => .ok (.scalar v, none)
  | .idx inds A =>
    let struc := remove_repeated_index inds
    do
      let v ← apply_contraction_indexed struc inds (.arr A)
      .ok (v, some struc)
  | .mul args => do
    let rs ← eval_list args
    evaluate_MUL_expression rs
  | .add args => do
    let rs ← eval_list args
    add_args rs
  | .pow b _e hIdx =>
    if hIdx then .error .indexedExponent
    else do
      let (v, oi) ← evaluate_Indexed_expression b
      match oi with
      | some l =>
        if _e = 2 then do
          let v3 ← apply_contraction_indexed [] l (svalPow2 v)
          .ok (v3, some [])
        else .error .powNotTwo
      | none => .ok (svalPowE _e v, none)

def eval_list : List (Ex α) → Except Err (List (SVal α × Option (List Nat)))
  | [] => .ok []
  | x :: xs => do
    let r ← evaluate_Indexed_expression x
    let rest ← eval_list xs
    .ok (r :: rest)

end

/-- Function `evaluate_expression` (lines 650-656): compute the index structure (its
errors propagate) and then evaluate. -/
def evaluate_expression (e : Ex α) : Except Err (SVal α × Option (List Nat)) := do
  let _ ← get_index_structure e
  evaluate_Indexed_expression e

/-- Row-major enumeration of all coordinate tuples of a shape
(`np.ndindex(*shape)`). -/
def allIx : List Nat → List (List Nat)
  | [] => [[]]
  | n :: rest => (List.range n).flatMap (fun k => (allIx rest).map (fun ix => k :: ix))

/-- Modelled from the spec: strict array `__getitem__` — rank and bounds are
checked, and indexing a scalar raises `TypeError`. -/
def getItem (v : SVal α) (ix : List Nat) : Except Err α :=
  match v with
  | .scalar _ => .error .notSubscriptable
  | .arr B =>
    if ix.length = B.shape.length then
      if (ix.zip B.shape).all (fun p => p.1 < p.2) then .ok (B.data ix)
      else .error .outOfBounds
    else .error .wrongRank

/-- One emitted scalar equation: `Eq(evaluated_lhs[ind], evaluated_rhs[ind])`
in the array branch, `Eq(evaluated_lhs, evaluated_rhs)` in the scalar
branch (where the whole rhs value, array or not, becomes the rhs). -/
def emitRows (A : NArr α) (r : SVal α) :
    List (List Nat) → Except Err (List (SVal α × SVal α))
  | [] => .ok []
  | ix :: rest => do
    let b ← getItem r ix
    let tail ← emitRows A r rest
    .ok ((.scalar (A.data ix), .scalar b) :: tail)

/-- The final assembly of `EinsteinExpansion.__init__` (lines 426-431): if
the evaluated lhs is an array, emit one equation per coordinate tuple of its
shape, indexing the rhs at the same tuple; otherwise emit the single
equation `Eq(lhs, rhs)` with no shape check at all. -/
def assemble (l r : SVal α) : Except Err (List (SVal α × SVal α)) :=
  match l with
  | .arr A => emitRows A r (allIx A.shape)
  | .scalar s => .ok [(.scalar s, r)]

/-- Lines 423-431 of `EinsteinExpansion.__init__`: evaluate the rhs, then
the lhs, then assemble the explicit scalar equations. -/
def expandEqn (l r : Ex α) : Except Err (List (SVal α × SVal α)) := do
  let (vr, _) ← evaluate_expression r
  let (vl, _) ← evaluate_expression l
  assemble vl vr

/-! Well-formedness of the leaf arrays: every `Indexed` leaf has at least
one index and its materialized array has one axis of extent `ndim` per index
(`EinsteinTerm.IndexedObj` builds exactly such arrays). -/
mutual

def wfB (ndim : Nat) : Ex α → Bool
  | .scal _ => true
  | .idx inds A => !inds.isEmpty && A.shape == List.replicate inds.length ndim
  | .mul args => wfB_list ndim args
  | .add args => wfB_list ndim args
  | .pow b _ _ => wfB ndim b

def wfB_list (ndim : Nat) : List (Ex α) → Bool
  | [] => true
  | x :: xs => wfB ndim x && wfB_list ndim xs

end

/-- The signature length of an evaluation outcome (`None` counts as zero
free indices); `none` when the evaluation failed. -/
def sigLenOf : Except Err (SVal α × Option (List Nat)) → Option Nat
  | .ok (_, oi) => some (oi.getD []).length
  | .error _ => none

/-- The shape of an evaluated value (scalars are rank 0). -/
def shapeOf : SVal α → List Nat
  | .scalar _ => []
  | .arr A => A.shape

/-- The invariant tying an evaluation result to its reported index
signature: scalars report `None` or an empty signature; arrays report a
nonempty signature and have one axis of extent `ndim` per reported index. -/
def Inv (ndim : Nat) : SVal α → Option (List Nat) → Prop
  | .scalar _, oi => oi = none ∨ oi = some []
  | .arr A, oi => ∃ l, oi = some l ∧ l ≠ [] ∧ A.shape = List.replicate l.length ndim

end Autofd

namespace Opensbli

variable {Q : Type} [DecidableEq Q]

open Autofd (Err)

/-- The `while key_list` loop of `SimulationEquations.sort_dictionary`
(opensbliequations.py lines 349-369), with `fuel = 1000 - iter_count`
remaining rounds.  Each round recomputes `key_list` (the dictionary keys not
yet in `order`) and appends, in dictionary order, every key whose whole
requirement list is already in `order`; when rounds run out while keys
remain, the source prints the stuck state and raises (modelled as
`Err.sortCap`). -/
def sortLoop (dict : List (Q × List Q)) : Nat → List Q → Except Err (List Q)
  | fuel, order =>
    let kz := dict.filter (fun kv => !(decide (kv.1 ∈ order)))
    if kz = [] then .ok order
    else
      match fuel with
      | 0 => .error .sortCap
      | f + 1 =>
        sortLoop dict f
          (order ++ (kz.filter (fun kv => kv.2.all (fun r => decide (r ∈ order)))).map
            (fun kv => kv.1))

/-- Method `SimulationEquations.sort_dictionary(order, dictionary)` (lines
328-371): the initial `order` is the known list extended with the base
names of the time-advance arrays, deduplicated (`list(set(...))`, whose
ordering Python leaves unspecified — only membership matters downstream);
after the loop, the first `len(order)` entries are dropped. -/
def sort_dictionary (known tadv : List Q) (dict : List (Q × List Q)) :
    Except Err (List Q) :=
  let order := (known ++ tadv).dedup
  (sortLoop dict 1000 order).map (fun res => res.drop order.length)

/-- Specification predicate: walking down the emitted list, every entry has
some dictionary record whose key it is and whose requirements were already
available (initial knowns plus earlier entries). -/
def stepOK (dict : List (Q × List Q)) : List Q → List Q → Prop
  | _, [] => True
  | acc, x :: xs =>
    (∃ kv ∈ dict, kv.1 = x ∧ ∀ r ∈ kv.2, r ∈ acc) ∧ stepOK dict (acc ++ [x]) xs

/-- An acyclic chain of `n` quantities: quantity `i+1` requires quantity `i`
and quantity `0` requires nothing. -/
def chainDict (n : Nat) : List (Nat × List Nat) :=
  (List.range n).map (fun i => (i, if i = 0 then [] else [i - 1]))

end Opensbli

namespace Autofd

variable {α : Type} [CommRing α]

theorem mem_remove_repeated_index {x : Nat} {l : List Nat} :
    x ∈ remove_repeated_index l ↔ x ∈ l ∧ l.count x = 1 := by
  simp [remove_repeated_index, List.mem_filter]

theorem checkAddSets_map_some (l : List Nat) (ls : List (List Nat)) :
    checkAddSets (some l) (List.map some ls) = .ok (ls.all (fun x => setEqB x l)) := by
  induction ls with
  | nil => rfl
  | cons x xs ih =>
    simp only [List.map_cons, checkAddSets, ih, List.all_cons]
    rfl

/-- Claim C8: all addends of a `Sum` must share one index set; if they do,
the signature is the first addend's index order, otherwise
`get_Add_indices` raises the index-mismatch error. -/
theorem claim8_sum_addend_sets (l : List Nat) (ls : List (List Nat)) :
    get_Add_indices (List.map some (l :: ls)) =
      (if ls.all (fun x => setEqB x l) then .ok (some l) else .error .addSetMismatch) := by
  have hck := checkAddSets_map_some l ls
  simp only [get_Add_indices, List.map_cons, List.all_cons, Option.isNone_some,
    Bool.false_and, if_false, Bool.false_eq_true]
  rw [hck]
  by_cases h : ls.all (fun x => setEqB x l)
  · simp [h, Bind.bind, Except.bind]
  · simp [h, Bind.bind, Except.bind]

/-- Claim C6 (counterexample): an index occurring three times across the
factors of a `Product` does not raise any validation error — the index is
silently dropped and the expansion reports no free indices. -/
theorem claim6_counterexample :
    get_index_structure
      (Ex.mul [Ex.idx [0] ⟨[3], fun _ => (0:ℤ)⟩, Ex.idx [0] ⟨[3], fun _ => 0⟩,
               Ex.idx [0] ⟨[3], fun _ => 0⟩]) = .ok none := by
  rfl

/-- Claim C6 (amended): an index symbol occurring three or more times across
the concatenated factor signatures is removed from the product's free-index
signature exactly like a twice-occurring one; `get_Mul_indices` is total and
never reports an error. -/
theorem claim6_amended (sigs : List (Option (List Nat))) (i : Nat)
    (h : 3 ≤ ((sigs.filterMap id).flatten).count i) :
    i ∉ (get_Mul_indices sigs).getD [] := by
  intro hmem
  unfold get_Mul_indices at hmem
  by_cases hfin : remove_repeated_index (sigs.filterMap id).flatten = []
  · simp [hfin] at hmem
  · simp only [hfin, if_false, Option.getD_some] at hmem
    rcases mem_remove_repeated_index.1 hmem with ⟨-, hcount⟩
    omega

/-- Claim C2: an index occurring exactly twice across the concatenated
factor signatures of a `Product` never survives as a free index, and the
evaluated product contracts over it: `u_i * v_i` at `ndim = 3` evaluates to
the scalar sum of the three component products. -/
theorem claim2_product_contraction :
    (∀ (sigs : List (Option (List Nat))) (i : Nat),
        ((sigs.filterMap id).flatten).count i = 2 →
        i ∉ (get_Mul_indices sigs).getD []) ∧
    (∀ u v : Nat → ℤ,
        evaluate_expression
          (Ex.mul [Ex.idx [0] ⟨[3], fun ix => u (ix.headD 0)⟩,
                   Ex.idx [0] ⟨[3], fun ix => v (ix.headD 0)⟩]) =
          .ok (.scalar (u 0 * v 0 + u 1 * v 1 + u 2 * v 2), none)) := by
  constructor
  · intro sigs i h hmem
    unfold get_Mul_indices at hmem
    by_cases hfin : remove_repeated_index (sigs.filterMap id).flatten = []
    · simp [hfin] at hmem
    · simp only [hfin, if_false, Option.getD_some] at hmem
      rcases mem_remove_repeated_index.1 hmem with ⟨-, hcount⟩
      omega
  · intro u v
    have h : evaluate_expression
        (Ex.mul [Ex.idx [0] ⟨[3], fun ix => u (ix.headD 0)⟩,
                 Ex.idx [0] ⟨[3], fun ix => v (ix.headD 0)⟩]) =
        .ok (.scalar ((1 * u 0) * v 0 + ((1 * u 1) * v 1 + ((1 * u 2) * v 2 + 0))),
             none) := rfl
    rw [h]; ring_nf

/-- Witness for claim C2 at a concrete input: the signature `[0, 0]`
(as in `u_i * v_i`) loses the twice-occurring index `0`. -/
theorem claim2_product_contraction_witness :
    (((([some [0], some [0]] : List (Option (List Nat))).filterMap id).flatten).count 0 = 2) ∧
    0 ∉ (get_Mul_indices [some [0], some [0]]).getD [] := by
  refine ⟨by decide, claim2_product_contraction.1 [some [0], some [0]] 0 (by decide)⟩

/-- Witness for claim C6 (amended) at a concrete input: a triply occurring
index is dropped without error. -/
theorem claim6_amended_witness :
    (3 ≤ ((([some [0], some [0], some [0]] : List (Option (List Nat))).filterMap
        id).flatten).count 0) ∧
    0 ∉ (get_Mul_indices [some [0], some [0], some [0]]).getD [] := by
  exact ⟨by decide, claim6_amended [some [0], some [0], some [0]] 0 (by decide)⟩

/-- Claim C7: squaring an indexed base yields zero free indices and the full
self-contraction (`a_i ** 2` is the scalar sum of the squares, for any
`ndim`); an exponent containing `Indexed` sub-terms is rejected, and so is
any exponent other than 2 on an indexed base. -/
theorem claim7_pow :
    (∀ (ndim : Nat) (a : Nat → ℤ),
        evaluate_Indexed_expression
          (Ex.pow (Ex.idx [0] ⟨[ndim], fun ix => a (ix.headD 0)⟩) 2 false) =
          .ok (.scalar (sumOver ndim (fun k => a k ^ 2)), some []) ∧
        get_index_structure
          (Ex.pow (Ex.idx [0] (⟨[ndim], fun ix => a (ix.headD 0)⟩ : NArr ℤ)) 2 false) =
          .ok none) ∧
    (∀ (b : Ex α) (e : Nat),
        evaluate_Indexed_expression (Ex.pow b e true) = .error .indexedExponent) ∧
    (∀ (b : Ex α) (e : Nat) (v : SVal α) (ll : List Nat),
        evaluate_Indexed_expression b = .ok (v, some ll) → e ≠ 2 →
        evaluate_Indexed_expression (Ex.pow b e false) = .error .powNotTwo) := by
  refine ⟨fun ndim a => ⟨rfl, rfl⟩, fun b e => rfl, fun b e v ll hb he => ?_⟩
  simp only [evaluate_Indexed_expression, Bool.false_eq_true, if_false, hb]
  simp [he, Bind.bind, Except.bind]

/-- Witness for claim C7: the exponent-3 hypothesis discharged on a
concrete rank-1 base at `ndim = 2`. -/
theorem claim7_pow_witness :
    evaluate_Indexed_expression (Ex.idx [0] (⟨[2], fun _ => (5:ℤ)⟩ : NArr ℤ)) =
      .ok (.arr ⟨[2], fun _ => (5:ℤ)⟩, some [0]) ∧
    evaluate_Indexed_expression
      (Ex.pow (Ex.idx [0] (⟨[2], fun _ => (5:ℤ)⟩ : NArr ℤ)) 3 false) =
      .error .powNotTwo := by
  refine ⟨rfl, ?_⟩
  exact claim7_pow.2.2 _ 3 _ [0] rfl (by decide)

end Autofd

namespace Opensbli

variable {Q : Type} [DecidableEq Q]

open Autofd (Err)

theorem stepOK_batch (dict : List (Q × List Q)) (t2 : List Q) :
    ∀ (batch order : List Q),
      (∀ x ∈ batch, ∃ kv ∈ dict, kv.1 = x ∧ ∀ r ∈ kv.2, r ∈ order) →
      stepOK dict (order ++ batch) t2 →
      stepOK dict order (batch ++ t2) := by
  intro batch
  induction batch with
  | nil => intro order _ h2; simpa using h2
  | cons b bs ih =>
    intro order hb h2
    refine ⟨hb b (by simp), ?_⟩
    apply ih (order ++ [b])
    · intro x hx
      rcases hb x (by simp [hx]) with ⟨kv, hkv, hk1, hreq⟩
      exact ⟨kv, hkv, hk1, fun r hr => List.mem_append_left _ (hreq r hr)⟩
    · have harr : (order ++ [b]) ++ bs = order ++ (b :: bs) := by simp
      rw [harr]; exact h2

theorem sortLoop_structure (dict : List (Q × List Q)) :
    ∀ (fuel : Nat) (order res : List Q),
      sortLoop dict fuel order = .ok res →
      ∃ t, res = order ++ t ∧
        (∀ x ∈ t, x ∉ order ∧ ∃ kv ∈ dict, kv.1 = x) ∧
        ((dict.map Prod.fst).Nodup → t.Nodup) ∧
        stepOK dict order t ∧
        (∀ kv ∈ dict, kv.1 ∈ res) := by
  intro fuel
  induction fuel with
  | zero =>
    intro order res h
    simp only [sortLoop] at h
    by_cases hkz : dict.filter (fun kv => !(decide (kv.1 ∈ order))) = []
    · rw [if_pos hkz] at h
      cases h
      refine ⟨[], by simp, by simp, fun _ => List.nodup_nil, trivial, ?_⟩
      intro kv hkv
      by_contra hnin
      have hmem : kv ∈ dict.filter (fun kv => !(decide (kv.1 ∈ order))) :=
        List.mem_filter.2 ⟨hkv, by simp [hnin]⟩
      rw [hkz] at hmem
      exact absurd hmem (List.not_mem_nil _)
    · rw [if_neg hkz] at h
      exact absurd h (by simp)
  | succ f ih =>
    intro order res h
    simp only [sortLoop] at h
    by_cases hkz : dict.filter (fun kv => !(decide (kv.1 ∈ order))) = []
    · rw [if_pos hkz] at h
      cases h
      refine ⟨[], by simp, by simp, fun _ => List.nodup_nil, trivial, ?_⟩
      intro kv hkv
      by_contra hnin
      have hmem : kv ∈ dict.filter (fun kv => !(decide (kv.1 ∈ order))) :=
        List.mem_filter.2 ⟨hkv, by simp [hnin]⟩
      rw [hkz] at hmem
      exact absurd hmem (List.not_mem_nil _)
    · rw [if_neg hkz] at h
      obtain ⟨t2, hres, hmem, hnd, hstep, hcompl⟩ := ih _ res h
      have hbatch : ∀ x ∈ ((dict.filter (fun kv => !(decide (kv.1 ∈ order)))).filter
          (fun kv => kv.2.all (fun r => decide (r ∈ order)))).map (fun kv => kv.1),
          x ∉ order ∧ ∃ kv ∈ dict, kv.1 = x ∧ ∀ r ∈ kv.2, r ∈ order := by
        intro x hx
        rcases List.mem_map.1 hx with ⟨kv, hkvf, hx1⟩
        rcases List.mem_filter.1 hkvf with ⟨hkz2, hcond⟩
        rcases List.mem_filter.1 hkz2 with ⟨hkvd, hnin⟩
        refine ⟨?_, kv, hkvd, hx1, ?_⟩
        · intro hxo
          rw [← hx1] at hxo
          simp [hxo] at hnin
        · intro r hr
          have := List.all_eq_true.1 hcond r hr
          simpa using this
      refine ⟨((dict.filter (fun kv => !(decide (kv.1 ∈ order)))).filter
          (fun kv => kv.2.all (fun r => decide (r ∈ order)))).map (fun kv => kv.1) ++ t2,
        by rw [hres, List.append_assoc], ?_, ?_, ?_, hcompl⟩
      · intro x hx
        rcases List.mem_append.1 hx with hxb | hxt
        · exact ⟨(hbatch x hxb).1, (hbatch x hxb).2.imp
            (fun kv hkv => ⟨hkv.1, hkv.2.1⟩)⟩
        · exact ⟨fun hxo => (hmem x hxt).1 (List.mem_append_left _ hxo), (hmem x hxt).2⟩
      · intro hkeys
        have hsub : List.Sublist
            (((dict.filter (fun kv => !(decide (kv.1 ∈ order)))).filter
              (fun kv => kv.2.all (fun r => decide (r ∈ order)))).map (fun kv => kv.1))
            (dict.map (fun kv => kv.1)) :=
          List.Sublist.map _ ((List.filter_sublist _).trans (List.filter_sublist _))
        refine List.nodup_append.2 ⟨hsub.nodup hkeys, hnd hkeys, ?_⟩
        intro a hab hat
        exact (hmem a hat).1 (List.mem_append_right _ hab)
      · apply stepOK_batch
        · intro x hx
          exact (hbatch x hx).2
        · exact hstep

theorem sort_dictionary_ok (known tadv : List Q) (dict : List (Q × List Q)) (l : List Q)
    (h : sort_dictionary known tadv dict = .ok l) :
    ∃ res, sortLoop dict 1000 ((known ++ tadv).dedup) = .ok res ∧
      l = res.drop ((known ++ tadv).dedup).length := by
  simp only [sort_dictionary] at h
  cases hres : sortLoop dict 1000 ((known ++ tadv).dedup) with
  | error e => rw [hres] at h; exact absurd h (by simp [Except.map])
  | ok res =>
    rw [hres] at h
    simp only [Except.map, Except.ok.injEq] at h
    exact ⟨res, rfl, h.symm⟩

/-- Claim C3: when `sort_dictionary` succeeds, the returned list contains
every dictionary key not in the known set exactly once, contains no known
entry, and lists every quantity only after all of its requirements (the
requirements of each entry are satisfied by the knowns plus the earlier
entries, which is `stepOK`). -/
theorem claim3_sort (known : List Q) (dict : List (Q × List Q))
    (hnd : (dict.map Prod.fst).Nodup) (l : List Q)
    (h : sort_dictionary known [] dict = .ok l) :
    (∀ kv ∈ dict, kv.1 ∉ known → l.count kv.1 = 1) ∧
    (∀ k ∈ known, k ∉ l) ∧
    stepOK dict known.dedup l := by
  obtain ⟨res, hres, hl⟩ := sort_dictionary_ok known [] dict l h
  rw [List.append_nil] at hres hl
  obtain ⟨t, hrt, hmem, hndt, hstep, hcompl⟩ := sortLoop_structure dict 1000 _ res hres
  have hlt : l = t := by
    rw [hl, hrt, List.drop_left]
  subst hlt
  refine ⟨?_, ?_, hstep⟩
  · intro kv hkv hnk
    have hr : kv.1 ∈ res := hcompl kv hkv
    rw [hrt] at hr
    rcases List.mem_append.1 hr with hro | hrt2
    · exact absurd (List.mem_dedup.1 hro) hnk
    · exact List.count_eq_one_of_mem (hndt (by simpa using hnd)) hrt2
  · intro k hk hkl
    exact (hmem k hkl).1 (List.mem_dedup.2 hk)

/-- Witness for claim C3: the spec scenario — requirements
`{p: {u0, u1}, T: {p}}` with known `{u0, u1}` yields the order `[p, T]`,
and the general theorem's conclusions hold there. -/
theorem claim3_sort_witness :
    sort_dictionary ["u0", "u1"] ([] : List String)
        [("p", ["u0", "u1"]), ("T", ["p"])] = .ok ["p", "T"] ∧
    (["p", "T"].count "p" = 1) ∧ ("u0" ∉ ["p", "T"]) ∧
    stepOK [("p", ["u0", "u1"]), ("T", ["p"])] (["u0", "u1"].dedup) ["p", "T"] := by
  have hs : sort_dictionary ["u0", "u1"] ([] : List String)
      [("p", ["u0", "u1"]), ("T", ["p"])] = .ok ["p", "T"] := by rfl
  have hc := claim3_sort ["u0", "u1"] [("p", ["u0", "u1"]), ("T", ["p"])]
    (by decide) ["p", "T"] hs
  exact ⟨hs, hc.1 ("p", ["u0", "u1"]) (by simp) (by decide), hc.2.1 "u0" (by simp),
    hc.2.2⟩

/-- Claim C10: a quantity listed among the time-advance array bases is
pre-satisfied — it never appears in the evaluation order returned by
`sort_dictionary`, even when absent from the caller's known list. -/
theorem claim10_time_advance (known tadv : List Q) (dict : List (Q × List Q)) (q : Q)
    (hq : q ∈ tadv) (l : List Q) (h : sort_dictionary known tadv dict = .ok l) :
    q ∉ l := by
  obtain ⟨res, hres, hl⟩ := sort_dictionary_ok known tadv dict l h
  obtain ⟨t, hrt, hmem, -, -, -⟩ := sortLoop_structure dict 1000 _ res hres
  have hlt : l = t := by
    rw [hl, hrt, List.drop_left]
  subst hlt
  intro hql
  exact (hmem q hql).1 (List.mem_dedup.2 (List.mem_append_right _ hq))

/-- Witness for claim C10: `rho` is a time-advance base, absent from the
caller's knowns, a quantity `p` depends on it, and `rho` is not emitted. -/
theorem claim10_time_advance_witness :
    sort_dictionary ([] : List String) ["rho"] [("p", ["rho"])] = .ok ["p"] ∧
    "rho" ∉ ["p"] := by
  have hs : sort_dictionary ([] : List String) ["rho"] [("p", ["rho"])] =
      .ok ["p"] := by rfl
  exact ⟨hs, claim10_time_advance [] ["rho"] [("p", ["rho"])] "rho" (by simp) ["p"] hs⟩

theorem sortLoop_ranked (dict : List (Q × List Q)) (rank : Q → Nat) (base : List Q)
    (hb : ∀ kv ∈ dict, rank kv.1 < 1000)
    (hr : ∀ kv ∈ dict, ∀ r ∈ kv.2, r ∈ base ∨
        ∃ kv2 ∈ dict, kv2.1 = r ∧ rank kv2.1 < rank kv.1) :
    ∀ (fuel : Nat) (order : List Q), base ⊆ order →
      (∀ kv ∈ dict, rank kv.1 + fuel < 1000 → kv.1 ∈ order) →
      ∃ res, sortLoop dict fuel order = .ok res := by
  intro fuel
  induction fuel with
  | zero =>
    intro order hbase hrank
    have hkz : dict.filter (fun kv => !(decide (kv.1 ∈ order))) = [] := by
      rw [List.filter_eq_nil]
      intro kv hkv
      have := hrank kv hkv (by have := hb kv hkv; omega)
      simp [this]
    exact ⟨order, by simp only [sortLoop]; rw [if_pos hkz]⟩
  | succ f ih =>
    intro order hbase hrank
    by_cases hkz : dict.filter (fun kv => !(decide (kv.1 ∈ order))) = []
    · exact ⟨order, by simp only [sortLoop]; rw [if_pos hkz]⟩
    · have hrank2 : ∀ kv ∈ dict, rank kv.1 + f < 1000 →
          kv.1 ∈ order ++ ((dict.filter (fun kv => !(decide (kv.1 ∈ order)))).filter
            (fun kv => kv.2.all (fun r => decide (r ∈ order)))).map (fun kv => kv.1) := by
        intro kv hkv hlt
        by_cases hin : kv.1 ∈ order
        · exact List.mem_append_left _ hin
        · apply List.mem_append_right
          have hcond : kv.2.all (fun r => decide (r ∈ order)) = true := by
            rw [List.all_eq_true]
            intro r hrr
            rcases hr kv hkv r hrr with hb2 | ⟨kv2, hkv2, hk2r, hlt2⟩
            · exact decide_eq_true (hbase hb2)
            · have hlt3 : rank kv2.1 + (f + 1) < 1000 := by omega
              exact decide_eq_true (hk2r ▸ hrank kv2 hkv2 hlt3)
          refine List.mem_map.2 ⟨kv, ?_, rfl⟩
          exact List.mem_filter.2 ⟨List.mem_filter.2 ⟨hkv, by simp [hin]⟩, hcond⟩
      obtain ⟨res, hres⟩ := ih
        (order ++ ((dict.filter (fun kv => !(decide (kv.1 ∈ order)))).filter
          (fun kv => kv.2.all (fun r => decide (r ∈ order)))).map (fun kv => kv.1))
        (fun x hx => List.mem_append_left _ (hbase hx)) hrank2
      exact ⟨res, by simp only [sortLoop]; rw [if_neg hkz]; exact hres⟩

/-- Claim C4 (amended): the scheduler always terminates — the loop is capped
at 1000 rounds — and an acyclic, satisfiable dependency set whose rank
certificate stays below the cap is fully resolved without error. -/
theorem claim4_amended (known tadv : List Q) (dict : List (Q × List Q))
    (rank : Q → Nat) (hb : ∀ kv ∈ dict, rank kv.1 < 1000)
    (hr : ∀ kv ∈ dict, ∀ r ∈ kv.2, r ∈ known ++ tadv ∨
        ∃ kv2 ∈ dict, kv2.1 = r ∧ rank kv2.1 < rank kv.1) :
    ∃ l, sort_dictionary known tadv dict = .ok l := by
  obtain ⟨res, hres⟩ := sortLoop_ranked dict rank (known ++ tadv) hb hr 1000
    ((known ++ tadv).dedup) (fun x hx => List.mem_dedup.2 hx)
    (fun kv _ hlt => absurd hlt (by omega))
  exact ⟨res.drop ((known ++ tadv).dedup).length,
    by simp only [sort_dictionary]; rw [hres]; rfl⟩

/-- Witness for claim C4 (amended): the two-quantity example resolves; rank
0 for `p`, 1 for `T` certifies acyclicity. -/
theorem claim4_amended_witness :
    ∃ l, sort_dictionary ["u0", "u1"] ([] : List String)
        [("p", ["u0", "u1"]), ("T", ["p"])] = .ok l := by
  apply claim4_amended ["u0", "u1"] [] [("p", ["u0", "u1"]), ("T", ["p"])]
    (fun q => if q = "T" then 1 else 0)
  · decide
  · decide

theorem chain_stall (n : Nat) :
    ∀ (f m : Nat) (order : List Nat),
      (∀ x ∈ order, x < m) → m + f < n →
      sortLoop (chainDict n) f order = .error .sortCap := by
  intro f
  induction f with
  | zero =>
    intro m order h1 h2
    have hmem : ((n - 1 : Nat), if n - 1 = 0 then ([] : List Nat) else [n - 1 - 1]) ∈
        chainDict n :=
      List.mem_map.2 ⟨n - 1, List.mem_range.2 (by omega), rfl⟩
    have hnotin : (n - 1) ∉ order := fun hx => by have := h1 _ hx; omega
    have hkz : (chainDict n).filter (fun kv => !(decide (kv.1 ∈ order))) ≠ [] :=
      List.ne_nil_of_mem (List.mem_filter.2 ⟨hmem, by simp [hnotin]⟩)
    simp only [sortLoop]
    rw [if_neg hkz]
  | succ f ih =>
    intro m order h1 h2
    have hmem : ((n - 1 : Nat), if n - 1 = 0 then ([] : List Nat) else [n - 1 - 1]) ∈
        chainDict n :=
      List.mem_map.2 ⟨n - 1, List.mem_range.2 (by omega), rfl⟩
    have hnotin : (n - 1) ∉ order := fun hx => by have := h1 _ hx; omega
    have hkz : (chainDict n).filter (fun kv => !(decide (kv.1 ∈ order))) ≠ [] :=
      List.ne_nil_of_mem (List.mem_filter.2 ⟨hmem, by simp [hnotin]⟩)
    simp only [sortLoop]
    rw [if_neg hkz]
    apply ih (m + 1)
    · intro x hx
      rcases List.mem_append.1 hx with hxo | hxb
      · exact Nat.lt_succ_of_lt (h1 x hxo)
      · rcases List.mem_map.1 hxb with ⟨kv, hkvf, hx1⟩
        rcases List.mem_filter.1 hkvf with ⟨hkz2, hcond⟩
        rcases List.mem_filter.1 hkz2 with ⟨hkvd, -⟩
        rcases List.mem_map.1 hkvd with ⟨i, hi, hkvi⟩
        subst hkvi
        simp only at hx1
        subst hx1
        by_cases hi0 : i = 0
        · omega
        · rw [if_neg hi0] at hcond
          simp only [List.all_cons, List.all_nil, Bool.and_true,
            decide_eq_true_eq] at hcond
          have := h1 _ hcond
          omega
    · omega

/-- Claim C4 (counterexample): an acyclic, satisfiable chain of 1001
quantities — each requiring only the previous one — exceeds the 1000-round
cap and makes the scheduler raise instead of completing. -/
theorem claim4_counterexample :
    ((chainDict 1001).map Prod.fst).Nodup ∧
    (∀ kv ∈ chainDict 1001, ∀ r ∈ kv.2,
        ∃ kv2 ∈ chainDict 1001, kv2.1 = r ∧ kv2.1 < kv.1) ∧
    sort_dictionary ([] : List Nat) [] (chainDict 1001) = .error .sortCap := by
  refine ⟨?_, ?_, ?_⟩
  · have hmap : (chainDict 1001).map Prod.fst = List.range 1001 := by
      simp only [chainDict, List.map_map]
      show List.map (fun i : Nat => i) (List.range 1001) = List.range 1001
      exact List.map_id _
    rw [hmap]
    exact List.nodup_range 1001
  · intro kv hkv r hr
    rcases List.mem_map.1 hkv with ⟨i, hi, rfl⟩
    simp only at hr
    by_cases hi0 : i = 0
    · rw [hi0] at hr; simp at hr
    · rw [if_neg hi0] at hr
      simp only [List.mem_singleton] at hr
      subst hr
      refine ⟨(i - 1, if i - 1 = 0 then [] else [i - 1 - 1]),
        List.mem_map.2 ⟨i - 1, List.mem_range.2 ?_, rfl⟩, rfl, by omega⟩
      have := List.mem_range.1 hi
      omega
  · have h := chain_stall 1001 1000 0 [] (by simp) (by omega)
    simp only [sort_dictionary]
    have hord : (([] : List Nat) ++ []).dedup = ([] : List Nat) := rfl
    rw [hord, h]
    rfl

end Opensbli

namespace Autofd

variable {α : Type} [CommRing α]

/-- Claim C9: in a `Sum` of array-valued addends, an addend whose index
order is the exact reverse of the leading addend's is transposed before the
elementwise addition, but only at rank 2; any other index-order mismatch
makes `add_args` raise. -/
theorem claim9_add_reversed (A B : NArr α) (la lb : List Nat) (h : la ≠ lb) :
    (lb.reverse = la ∧ lb.length = 2 →
       ∃ C, add_args [(.arr A, some la), (.arr B, some lb)] = .ok (.arr C, some la) ∧
         C.shape = A.shape ∧ ∀ ix, C.data ix = A.data ix + B.data (swap2 ix)) ∧
    (¬(lb.reverse = la ∧ lb.length = 2) →
       add_args [(.arr A, some la), (.arr B, some lb)] = .error .addArgsMismatch) := by
  have h1 : add_args [(SVal.arr A, some la), (SVal.arr B, some lb)] =
      addLoop (some la) (SVal.arr A) [(SVal.arr B, some lb)] := rfl
  have hne : ¬(some lb = some la) := fun hj => h (Option.some.inj hj).symm
  constructor
  · rintro ⟨hrev, hlen⟩
    refine ⟨⟨A.shape, fun ix => A.data ix + B.data (swap2 ix)⟩, ?_, rfl, fun ix => rfl⟩
    rw [h1]
    simp only [addLoop]
    rw [if_neg hne, if_pos ⟨by rw [hrev], hlen⟩]
    rfl
  · intro hnot
    rw [h1]
    simp only [addLoop]
    rw [if_neg hne,
      if_neg (fun hj => hnot ⟨(Option.some.inj hj.1).symm, hj.2⟩)]

/-- Witness for claim C9 at concrete rank-2 arrays with reversed index
orders `[0, 1]` and `[1, 0]`. -/
theorem claim9_add_reversed_witness :
    (([0, 1] : List Nat) ≠ [1, 0]) ∧
    ∃ C, add_args [(SVal.arr ⟨[2, 2], fun ix => ((ix.headD 0 : Nat) : ℤ)⟩, some [0, 1]),
                   (SVal.arr ⟨[2, 2], fun ix => ((ix.getD 1 0 : Nat) : ℤ)⟩, some [1, 0])] =
        .ok (.arr C, some [0, 1]) ∧
      C.shape = [2, 2] ∧
      ∀ ix, C.data ix = ((ix.headD 0 : Nat) : ℤ) + (((swap2 ix).getD 1 0 : Nat) : ℤ) := by
  refine ⟨by decide, ?_⟩
  obtain ⟨C, hC, hsh, hdata⟩ :=
    (claim9_add_reversed ⟨[2, 2], fun ix => ((ix.headD 0 : Nat) : ℤ)⟩
      ⟨[2, 2], fun ix => ((ix.getD 1 0 : Nat) : ℤ)⟩ [0, 1] [1, 0] (by decide)).1
      ⟨by decide, by decide⟩
  exact ⟨C, hC, hsh, hdata⟩

/-- Claim C5 (counterexample): a scalar lhs with an array rhs is not
rejected — the driver's scalar branch emits one `Eq` whose rhs is the whole
array, with no shape check at all. -/
theorem claim5_counterexample :
    expandEqn (Ex.scal (7 : ℤ)) (Ex.idx [0] ⟨[2], fun _ => (5 : ℤ)⟩) =
      .ok [(SVal.scalar 7, SVal.arr ⟨[2], fun _ => (5 : ℤ)⟩)] := by
  rfl

end Autofd

namespace Autofd

variable {α : Type} [CommRing α]

theorem posOfAux_length (x : Nat) :
    ∀ (l : List Nat) (i : Nat), (posOfAux x l i).length = l.count x := by
  intro l
  induction l with
  | nil => intro i; simp [posOfAux]
  | cons y ys ih =>
    intro i
    by_cases hy : y = x
    · rw [posOfAux, if_pos hy]
      simp [List.count_cons, hy, ih]
    · rw [posOfAux, if_neg hy]
      simp [List.count_cons, hy, ih]

theorem posOfAux_bounds (x : Nat) :
    ∀ (l : List Nat) (i j : Nat), j ∈ posOfAux x l i → i ≤ j ∧ j < i + l.length := by
  intro l
  induction l with
  | nil => intro i j hj; simp [posOfAux] at hj
  | cons y ys ih =>
    intro i j hj
    by_cases hy : y = x
    · rw [posOfAux, if_pos hy] at hj
      rcases List.mem_cons.1 hj with rfl | hj2
      · simp
      · have := ih (i + 1) j hj2
        constructor <;> [omega; (simp only [List.length_cons]; omega)]
    · rw [posOfAux, if_neg hy] at hj
      have := ih (i + 1) j hj
      constructor <;> [omega; (simp only [List.length_cons]; omega)]

theorem posOfAux_nodup (x : Nat) :
    ∀ (l : List Nat) (i : Nat), (posOfAux x l i).Nodup := by
  intro l
  induction l with
  | nil => intro i; simp [posOfAux]
  | cons y ys ih =>
    intro i
    by_cases hy : y = x
    · rw [posOfAux, if_pos hy]
      refine List.nodup_cons.2 ⟨?_, ih (i + 1)⟩
      intro hmem
      have := posOfAux_bounds x ys (i + 1) i hmem
      omega
    · rw [posOfAux, if_neg hy]
      exact ih (i + 1)

theorem length_filter_ne (x : Nat) :
    ∀ (t : List Nat), (t.filter (fun y => !(y == x))).length = t.length - t.count x := by
  intro t
  induction t with
  | nil => simp
  | cons y ys ih =>
    have hcle := List.count_le_length x ys
    by_cases hy : y = x
    · subst hy
      simp [List.filter_cons, List.count_cons, ih]
    · have hby : (y == x) = false := beq_eq_false_iff_ne.2 hy
      simp [List.filter_cons, List.count_cons, hby, ih]
      omega

theorem getD_replicate (d : Nat) :
    ∀ (n i : Nat), i < n → (List.replicate n d).getD i 0 = d := by
  intro n
  induction n with
  | zero => intro i hi; omega
  | succ m ih =>
    intro i hi
    rw [List.replicate_succ]
    cases i with
    | zero => simp
    | succ j =>
      rw [List.getD_cons_succ]
      exact ih j (by omega)

theorem length_filter_not_contains :
    ∀ (axes : List Nat) (n : Nat), axes.Nodup → (∀ a ∈ axes, a < n) →
      ((List.range n).filter (fun i => !(axes.contains i))).length = n - axes.length := by
  intro axes
  induction axes with
  | nil =>
    intro n _ _
    have hall : (List.range n).filter (fun i => !(([] : List Nat).contains i)) =
        List.range n :=
      List.filter_eq_self.2 (fun a _ => by simp [List.contains])
    rw [hall]
    simp
  | cons a as ih =>
    intro n hnd hlt
    have hnas : a ∉ as := (List.nodup_cons.1 hnd).1
    have hsplit : (List.range n).filter (fun i => !((a :: as).contains i)) =
        ((List.range n).filter (fun i => !(as.contains i))).filter (fun i => i != a) := by
      rw [List.filter_filter]
      apply List.filter_congr
      intro i _
      simp only [List.contains_cons, Bool.not_or, bne]

    have hain : a ∈ (List.range n).filter (fun i => !(as.contains i)) :=
      List.mem_filter.2 ⟨List.mem_range.2 (hlt a (by simp)), by simp [hnas]⟩
    have hnd2 : ((List.range n).filter (fun i => !(as.contains i))).Nodup :=
      (List.nodup_range n).filter _
    have herase : ((List.range n).filter (fun i => !(as.contains i))).filter
        (fun i => i != a) = ((List.range n).filter (fun i => !(as.contains i))).erase a :=
      (hnd2.erase_eq_filter a).symm
    rw [hsplit, herase, List.length_erase_of_mem hain,
      ih n (List.nodup_cons.1 hnd).2 (fun b hb => hlt b (by simp [hb]))]
    simp only [List.length_cons]
    omega

theorem removeAxes_replicate (ndim n : Nat) (axes : List Nat)
    (hnd : axes.Nodup) (hlt : ∀ a ∈ axes, a < n) :
    removeAxes (List.replicate n ndim) axes = List.replicate (n - axes.length) ndim := by
  unfold removeAxes
  rw [List.length_replicate]
  refine List.eq_replicate.2 ⟨?_, ?_⟩
  · rw [List.length_map]
    exact length_filter_not_contains axes n hnd hlt
  · intro b hb
    rcases List.mem_map.1 hb with ⟨i, hif, rfl⟩
    rcases List.mem_filter.1 hif with ⟨hir, -⟩
    exact getD_replicate ndim n i (List.mem_range.1 hir)

theorem contractOne_shape (ndim n : Nat) (A : NArr α) (axes : List Nat)
    (hA : A.shape = List.replicate n ndim) (hnd : axes.Nodup)
    (hlt : ∀ a ∈ axes, a < n) :
    (axes.length < n → ∃ B, contractOne A axes = .arr B ∧
        B.shape = List.replicate (n - axes.length) ndim) ∧
    (axes.length = n → ∃ s, contractOne A axes = .scalar s) := by
  have hrm : removeAxes A.shape axes = List.replicate (n - axes.length) ndim := by
    rw [hA]; exact removeAxes_replicate ndim n axes hnd hlt
  constructor
  · intro hlt2
    simp only [contractOne]
    rw [hrm]
    cases hk : n - axes.length with
    | zero => omega
    | succ m =>
      rw [List.replicate_succ]
      exact ⟨⟨ndim :: List.replicate m ndim, _⟩, rfl, by rw [← List.replicate_succ, ← hk]⟩
  · intro heq
    simp only [contractOne]
    rw [hrm, heq, Nat.sub_self]
    exact ⟨_, rfl⟩

end Autofd

namespace Autofd

variable {α : Type} [CommRing α]

theorem contractGo_shape (ndim : Nat) :
    ∀ (C : List Nat), C.Nodup → ∀ (t : List Nat) (A : NArr α),
      A.shape = List.replicate t.length ndim → (∀ x ∈ C, x ∈ t) →
      ∃ v, contractGo C t (.arr A) = .ok v ∧
        shapeOf v = List.replicate (t.filter (fun y => !(C.contains y))).length ndim ∧
        (C ≠ [] → t.filter (fun y => !(C.contains y)) = [] → ∃ s, v = .scalar s) := by
  intro C
  induction C with
  | nil =>
    intro _ t A hA _
    refine ⟨.arr A, rfl, ?_, fun h => absurd rfl h⟩
    have hft : t.filter (fun y => !(([] : List Nat).contains y)) = t :=
      List.filter_eq_self.2 (fun a _ => by simp [List.contains])
    rw [hft]
    exact hA
  | cons x xs ih =>
    intro hnd t A hA hsub
    have hx : x ∈ t := hsub x (by simp)
    have hcount : 0 < t.count x := List.count_pos_iff_mem.2 hx
    have haxlen : (posOf t x).length = t.count x := posOfAux_length x t 0
    have haxnd : (posOf t x).Nodup := posOfAux_nodup x t 0
    have haxlt : ∀ a ∈ posOf t x, a < t.length := by
      intro a ha
      have := posOfAux_bounds x t 0 a ha
      omega
    have hcle : t.count x ≤ t.length := List.count_le_length x t
    have ht2len : (t.filter (fun y => !(y == x))).length = t.length - t.count x :=
      length_filter_ne x t
    have hxsnotx : ∀ y ∈ xs, y ∈ t.filter (fun y => !(y == x)) := by
      intro y hy
      have hyx : y ≠ x := fun hh => (List.nodup_cons.1 hnd).1 (hh ▸ hy)
      exact List.mem_filter.2 ⟨hsub y (by simp [hy]), by simp [hyx]⟩
    have hff : (t.filter (fun y => !(y == x))).filter (fun y => !(xs.contains y)) =
        t.filter (fun y => !((x :: xs).contains y)) := by
      rw [List.filter_filter]
      apply List.filter_congr
      intro y _
      simp only [List.contains_cons, Bool.not_or]
      exact Bool.and_comm _ _
    rcases Nat.lt_or_ge (t.count x) t.length with hlt | hge
    · obtain ⟨B, hB, hBsh⟩ :=
        (contractOne_shape ndim t.length A (posOf t x) hA haxnd haxlt).1 (by omega)
      obtain ⟨v, hv, hvsh, hvs⟩ := ih (List.nodup_cons.1 hnd).2
        (t.filter (fun y => !(y == x))) B (by rw [hBsh, ht2len, haxlen]) hxsnotx
      refine ⟨v, ?_, ?_, ?_⟩
      · simp only [contractGo]
        rw [hB]
        exact hv
      · rw [← hff]
        exact hvsh
      · intro _ hemp
        rw [← hff] at hemp
        cases hxs : xs with
        | nil =>
          exfalso
          subst hxs
          have hid : (t.filter (fun y => !(y == x))).filter
              (fun y => !(([] : List Nat).contains y)) = t.filter (fun y => !(y == x)) :=
            List.filter_eq_self.2 (fun a _ => by simp [List.contains])
          rw [hid] at hemp
          have := ht2len
          rw [hemp] at this
          simp at this
          omega
        | cons a as =>
          subst hxs
          exact hvs (by simp) hemp
    · have heq : t.count x = t.length := le_antisymm hcle hge
      obtain ⟨s, hS⟩ :=
        (contractOne_shape ndim t.length A (posOf t x) hA haxnd haxlt).2 (by omega)
      have ht2e : t.filter (fun y => !(y == x)) = [] := by
        rw [← List.length_eq_zero, ht2len]
        omega
      have hxse : xs = [] := by
        cases hxs : xs with
        | nil => rfl
        | cons a as =>
          exfalso
          have := hxsnotx a (by simp [hxs])
          rw [ht2e] at this
          exact absurd this (List.not_mem_nil a)
      subst hxse
      refine ⟨.scalar s, ?_, ?_, fun _ _ => ⟨s, rfl⟩⟩
      · simp only [contractGo]
        rw [hS]
      · have hfe2 : t.filter (fun y => !(([x] : List Nat).contains y)) =
            t.filter (fun y => !(y == x)) := by
          apply List.filter_congr
          intro y _
          by_cases hyx : y = x
          · simp [List.contains_cons, hyx]
          · simp [List.contains_cons, hyx, beq_eq_false_iff_ne.2 hyx]
        rw [hfe2, ht2e]
        rfl

theorem contract_rr (ndim : Nat) (t : List Nat) (A : NArr α)
    (hA : A.shape = List.replicate t.length ndim) (ht : t ≠ []) :
    ∃ v, apply_contraction_indexed (remove_repeated_index t) t (.arr A) = .ok v ∧
      Inv ndim v (some (remove_repeated_index t)) := by
  have hnd : (contractList (remove_repeated_index t) t).Nodup := List.nodup_dedup _
  have hsub : ∀ x ∈ contractList (remove_repeated_index t) t, x ∈ t := by
    intro x hxC
    exact (List.mem_filter.1 (List.mem_dedup.1 hxC)).1
  have hkey : t.filter (fun y => !((contractList (remove_repeated_index t) t).contains y)) =
      remove_repeated_index t := by
    apply List.filter_congr
    intro y hy
    by_cases hc : t.count y = 1
    · have hyrr : y ∈ remove_repeated_index t := mem_remove_repeated_index.2 ⟨hy, hc⟩
      have hync : y ∉ contractList (remove_repeated_index t) t := by
        intro hyc
        have := (List.mem_filter.1 (List.mem_dedup.1 hyc)).2
        simp [hyrr] at this
      simp [hync, hc]
    · have hyc : y ∈ contractList (remove_repeated_index t) t := by
        apply List.mem_dedup.2
        refine List.mem_filter.2 ⟨hy, ?_⟩
        have : y ∉ remove_repeated_index t := fun hh =>
          hc (mem_remove_repeated_index.1 hh).2
        simp [this]
      simp [hyc, hc]
  obtain ⟨v, hv, hvsh, hvs⟩ := contractGo_shape ndim _ hnd t A hA hsub
  rw [hkey] at hvsh hvs
  refine ⟨v, hv, ?_⟩
  by_cases hrr : remove_repeated_index t = []
  · have hCne : contractList (remove_repeated_index t) t ≠ [] := by
      have hfe : t.filter (fun x => !((remove_repeated_index t).contains x)) = t := by
        apply List.filter_eq_self.2
        intro a _
        simp [hrr, List.contains]
      unfold contractList
      rw [hfe]
      simp [List.dedup_eq_nil, ht]
    obtain ⟨s, hvsc⟩ := hvs hCne hrr
    subst hvsc
    rw [hrr]
    exact Or.inr rfl
  · cases v with
    | scalar s =>
      exfalso
      have hnilrep : List.replicate (remove_repeated_index t).length ndim = [] := by
        rw [← hvsh]; rfl
      have hlen : (remove_repeated_index t).length = 0 := by
        by_contra hne
        have hmemrep : ndim ∈ List.replicate (remove_repeated_index t).length ndim :=
          List.mem_replicate.2 ⟨hne, rfl⟩
        rw [hnilrep] at hmemrep
        exact absurd hmemrep (List.not_mem_nil ndim)
      exact hrr (List.length_eq_zero.1 hlen)
    | arr B =>
      exact ⟨remove_repeated_index t, rfl, hrr, hvsh⟩

theorem contract_all_scalar (ndim : Nat) (ll : List Nat) (A : NArr α)
    (hA : A.shape = List.replicate ll.length ndim) (hne : ll ≠ []) :
    ∃ s, apply_contraction_indexed [] ll (.arr A) = .ok (.scalar s) := by
  have hC : contractList [] ll = ll.dedup := by
    unfold contractList
    congr 1
    exact List.filter_eq_self.2 (fun a _ => by simp [List.contains])
  have hnd : (contractList [] ll).Nodup := List.nodup_dedup _
  have hsub : ∀ x ∈ contractList [] ll, x ∈ ll := by
    intro x hxC
    rw [hC] at hxC
    exact List.mem_dedup.1 hxC
  have hfe : ll.filter (fun y => !((contractList [] ll).contains y)) = [] := by
    apply List.filter_eq_nil.2
    intro a ha
    have : a ∈ contractList [] ll := by
      rw [hC]; exact List.mem_dedup.2 ha
    simp [this]
  obtain ⟨v, hv, hvsh, hvs⟩ := contractGo_shape ndim _ hnd ll A hA hsub
  have hCne : contractList [] ll ≠ [] := by
    rw [hC]
    simp [List.dedup_eq_nil, hne]
  obtain ⟨s, rfl⟩ := hvs hCne hfe
  exact ⟨s, hv⟩

theorem contract_scalar_nil (outer : List Nat) (s : α) :
    apply_contraction_indexed outer [] (.scalar s) = .ok (.scalar s) := rfl

end Autofd

namespace Autofd

variable {α : Type} [CommRing α]

theorem tensorstep_shape (ndim : Nat) (a : SVal α × List Nat)
    (r : SVal α × Option (List Nat)) (hr : Inv ndim r.1 r.2)
    (h1 : shapeOf a.1 = List.replicate a.2.length ndim)
    (h2 : ∀ B, a.1 = SVal.arr B → a.2 ≠ []) :
    shapeOf (tensorproduct a.1 r.1) = List.replicate (a.2 ++ r.2.getD []).length ndim ∧
    ∀ B, tensorproduct a.1 r.1 = SVal.arr B → a.2 ++ r.2.getD [] ≠ [] := by
  cases ha : a.1 with
  | scalar s =>
    have ha2 : a.2 = [] := by
      have h0 : ([] : List Nat) = List.replicate a.2.length ndim := by rw [← h1, ha]; rfl
      cases h5 : a.2 with
      | nil => rfl
      | cons c cs =>
        rw [h5] at h0
        simp [List.replicate_succ] at h0
    cases hrv : r.1 with
    | scalar s2 =>
      have hr2 : r.2.getD [] = [] := by
        rw [hrv] at hr
        rcases hr with h | h
        · rw [h]; rfl
        · rw [h]; rfl
      rw [ha2, hr2]
      exact ⟨rfl, fun B hB => SVal.noConfusion hB⟩
    | arr Bv =>
      rw [hrv] at hr
      rcases hr with ⟨l, hl, hlne, hsh⟩
      rw [ha2, hl]
      refine ⟨?_, fun B _ => by simp [hlne]⟩
      show Bv.shape = List.replicate (([] : List Nat) ++ l).length ndim
      simpa using hsh
  | arr Av =>
    have ha2ne : a.2 ≠ [] := h2 Av ha
    have h1A : Av.shape = List.replicate a.2.length ndim := by rw [ha] at h1; exact h1
    cases hrv : r.1 with
    | scalar s2 =>
      have hr2 : r.2.getD [] = [] := by
        rw [hrv] at hr
        rcases hr with h | h
        · rw [h]; rfl
        · rw [h]; rfl
      rw [hr2]
      refine ⟨?_, fun B _ => by simp [ha2ne]⟩
      show Av.shape = List.replicate (a.2 ++ ([] : List Nat)).length ndim
      simpa using h1A
    | arr Bv =>
      rw [hrv] at hr
      rcases hr with ⟨l, hl, hlne, hsh⟩
      rw [hl]
      refine ⟨?_, fun B _ => by simp [ha2ne]⟩
      show Av.shape ++ Bv.shape = List.replicate (a.2 ++ l).length ndim
      rw [h1A, hsh, List.length_append, List.replicate_add]

theorem mulFold_shape (ndim : Nat) :
    ∀ (rs : List (SVal α × Option (List Nat))) (acc : SVal α × List Nat),
      (∀ r ∈ rs, Inv ndim r.1 r.2) →
      shapeOf acc.1 = List.replicate acc.2.length ndim →
      (∀ B, acc.1 = SVal.arr B → acc.2 ≠ []) →
      shapeOf (rs.foldl (fun a r => (tensorproduct a.1 r.1, a.2 ++ r.2.getD [])) acc).1 =
        List.replicate
          ((rs.foldl (fun a r => (tensorproduct a.1 r.1, a.2 ++ r.2.getD [])) acc).2).length
          ndim ∧
      ∀ B, (rs.foldl (fun a r => (tensorproduct a.1 r.1, a.2 ++ r.2.getD [])) acc).1 =
          SVal.arr B →
        (rs.foldl (fun a r => (tensorproduct a.1 r.1, a.2 ++ r.2.getD [])) acc).2 ≠ [] := by
  intro rs
  induction rs with
  | nil => intro acc _ h1 h2; exact ⟨h1, h2⟩
  | cons r rs ih =>
    intro acc hinv h1 h2
    simp only [List.foldl_cons]
    obtain ⟨hs1, hs2⟩ := tensorstep_shape ndim acc r (hinv r (by simp)) h1 h2
    exact ih (tensorproduct acc.1 r.1, acc.2 ++ r.2.getD [])
      (fun r2 hr2 => hinv r2 (by simp [hr2])) hs1 hs2

theorem mulFold_acc (rs : List (SVal α × Option (List Nat))) :
    mulFold rs = rs.foldl (fun a r => (tensorproduct a.1 r.1, a.2 ++ r.2.getD [])) 
      (.scalar 1, []) := rfl

theorem evaluate_MUL_inv (ndim : Nat) (rs : List (SVal α × Option (List Nat)))
    (hinv : ∀ r ∈ rs, Inv ndim r.1 r.2) (v : SVal α) (oi : Option (List Nat))
    (h : evaluate_MUL_expression rs = .ok (v, oi)) : Inv ndim v oi := by
  have hfold := mulFold_shape ndim rs (.scalar 1, []) hinv rfl
    (fun B hB => SVal.noConfusion hB)
  rw [← mulFold_acc] at hfold
  simp only [evaluate_MUL_expression] at h
  cases hf1 : (mulFold rs).1 with
  | scalar s =>
    have h2 : (mulFold rs).2 = [] := by
      have h0 : ([] : List Nat) = List.replicate (mulFold rs).2.length ndim := by
        rw [← hfold.1, hf1]; rfl
      cases h5 : (mulFold rs).2 with
      | nil => rfl
      | cons c cs =>
        rw [h5] at h0
        simp [List.replicate_succ] at h0
    rw [hf1, h2] at h
    rw [contract_scalar_nil] at h
    simp only [Bind.bind, Except.bind, Except.ok.injEq, Prod.mk.injEq] at h
    obtain ⟨hv, hoi⟩ := h
    subst hv
    refine Or.inl ?_
    rw [← hoi]
    rfl
  | arr A =>
    have h2ne : (mulFold rs).2 ≠ [] := hfold.2 A hf1
    have hsh : A.shape = List.replicate (mulFold rs).2.length ndim := by
      have := hfold.1
      rw [hf1] at this
      exact this
    obtain ⟨w, hw, hwInv⟩ := contract_rr ndim (mulFold rs).2 A hsh h2ne
    rw [hf1, hw] at h
    simp only [Bind.bind, Except.bind, Except.ok.injEq, Prod.mk.injEq] at h
    obtain ⟨hv, hoi⟩ := h
    by_cases hrr : remove_repeated_index (mulFold rs).2 = []
    · rw [if_pos hrr] at hoi
      rw [← hv, ← hoi]
      cases w with
      | scalar s2 => exact Or.inl rfl
      | arr B =>
        rw [hrr] at hwInv
        rcases hwInv with ⟨l, hl, hlne, -⟩
        exact absurd (Option.some.inj hl).symm hlne
    · rw [if_neg hrr] at hoi
      rw [← hv, ← hoi]
      exact hwInv

theorem sumScalars_scalar :
    ∀ (vs : List (SVal α)) (s : α) (w : SVal α),
      sumScalars (.scalar s) vs = .ok w → ∃ s2, w = .scalar s2 := by
  intro vs
  induction vs with
  | nil =>
    intro s w h
    exact ⟨s, (Except.ok.inj h).symm⟩
  | cons v vs ih =>
    intro s w h
    cases v with
    | scalar s2 =>
      simp only [sumScalars, svalAddEq, Bind.bind, Except.bind] at h
      exact ih (s + s2) w h
    | arr B =>
      simp [sumScalars, svalAddEq, Bind.bind, Except.bind] at h

theorem svalAddEq_facts (ev pv e2 : SVal α) (h : svalAddEq ev pv = .ok e2) :
    shapeOf e2 = shapeOf ev ∧ ∀ B, e2 = .arr B → ∃ A0, ev = .arr A0 := by
  cases ev with
  | scalar s =>
    cases pv with
    | scalar s2 =>
      simp only [svalAddEq, Except.ok.injEq] at h
      subst h
      exact ⟨rfl, fun B hB => SVal.noConfusion hB⟩
    | arr B => simp [svalAddEq] at h
  | arr A =>
    cases pv with
    | scalar s2 => simp [svalAddEq] at h
    | arr B =>
      simp only [svalAddEq, Except.ok.injEq] at h
      subst h
      exact ⟨rfl, fun B2 _ => ⟨A, rfl⟩⟩

theorem svalAddTrans_facts (ev pv e2 : SVal α) (h : svalAddTrans ev pv = .ok e2) :
    shapeOf e2 = shapeOf ev ∧ ∀ B, e2 = .arr B → ∃ A0, ev = .arr A0 := by
  cases ev with
  | scalar s =>
    cases pv with
    | scalar s2 => simp [svalAddTrans] at h
    | arr B => simp [svalAddTrans] at h
  | arr A =>
    cases pv with
    | scalar s2 => simp [svalAddTrans] at h
    | arr B =>
      simp only [svalAddTrans, Except.ok.injEq] at h
      subst h
      exact ⟨rfl, fun B2 _ => ⟨A, rfl⟩⟩

theorem addLoop_cons_some (lead : Option (List Nat)) (ev pv : SVal α) (il : List Nat)
    (rest : List (SVal α × Option (List Nat))) :
    addLoop lead ev ((pv, some il) :: rest) =
      if some il = lead then
        (do let e2 ← svalAddEq ev pv; addLoop lead e2 rest)
      else if lead = some il.reverse ∧ il.length = 2 then
        (do let e2 ← svalAddTrans ev pv; addLoop lead e2 rest)
      else .error .addArgsMismatch := rfl

theorem addLoop_cons_none (lead : Option (List Nat)) (ev pv : SVal α)
    (rest : List (SVal α × Option (List Nat))) :
    addLoop lead ev ((pv, none) :: rest) =
      if (none : Option (List Nat)) = lead then
        (do let e2 ← svalAddEq ev pv; addLoop lead e2 rest)
      else .error .reverseNone := rfl

theorem addLoop_inv (lead : Option (List Nat)) :
    ∀ (rest : List (SVal α × Option (List Nat))) (ev v : SVal α) (oi : Option (List Nat)),
      addLoop lead ev rest = .ok (v, oi) →
      oi = lead ∧ shapeOf v = shapeOf ev ∧ (∀ B, v = .arr B → ∃ A0, ev = .arr A0) := by
  intro rest
  induction rest with
  | nil =>
    intro ev v oi h
    simp only [addLoop, Except.ok.injEq, Prod.mk.injEq] at h
    obtain ⟨hv, hoi⟩ := h
    subst hv
    exact ⟨hoi.symm, rfl, fun B hB => ⟨B, hB⟩⟩
  | cons p rest ih =>
    intro ev v oi h
    obtain ⟨pv, pind⟩ := p
    cases pind with
    | none =>
      rw [addLoop_cons_none] at h
      by_cases hpl : (none : Option (List Nat)) = lead
      · rw [if_pos hpl] at h
        cases hadd : svalAddEq ev pv with
        | error e => rw [hadd] at h; simp [Bind.bind, Except.bind] at h
        | ok e2 =>
          rw [hadd] at h
          simp only [Bind.bind, Except.bind] at h
          obtain ⟨ho, hsh, harr⟩ := ih e2 v oi h
          obtain ⟨hf1, hf2⟩ := svalAddEq_facts ev pv e2 hadd
          exact ⟨ho, hsh.trans hf1, fun B hB => by
            obtain ⟨A0, hA0⟩ := harr B hB
            exact hf2 A0 hA0⟩
      · rw [if_neg hpl] at h
        simp at h
    | some il =>
      rw [addLoop_cons_some] at h
      by_cases hpl : some il = lead
      · rw [if_pos hpl] at h
        cases hadd : svalAddEq ev pv with
        | error e => rw [hadd] at h; simp [Bind.bind, Except.bind] at h
        | ok e2 =>
          rw [hadd] at h
          simp only [Bind.bind, Except.bind] at h
          obtain ⟨ho, hsh, harr⟩ := ih e2 v oi h
          obtain ⟨hf1, hf2⟩ := svalAddEq_facts ev pv e2 hadd
          exact ⟨ho, hsh.trans hf1, fun B hB => by
            obtain ⟨A0, hA0⟩ := harr B hB
            exact hf2 A0 hA0⟩
      · rw [if_neg hpl] at h
        by_cases hc : lead = some il.reverse ∧ il.length = 2
        · rw [if_pos hc] at h
          cases hadd : svalAddTrans ev pv with
          | error e => rw [hadd] at h; simp [Bind.bind, Except.bind] at h
          | ok e2 =>
            rw [hadd] at h
            simp only [Bind.bind, Except.bind] at h
            obtain ⟨ho, hsh, harr⟩ := ih e2 v oi h
            obtain ⟨hf1, hf2⟩ := svalAddTrans_facts ev pv e2 hadd
            exact ⟨ho, hsh.trans hf1, fun B hB => by
              obtain ⟨A0, hA0⟩ := harr B hB
              exact hf2 A0 hA0⟩
        · rw [if_neg hc] at h
          simp at h

theorem add_args_inv (ndim : Nat) (rs : List (SVal α × Option (List Nat)))
    (hinv : ∀ r ∈ rs, Inv ndim r.1 r.2) (v : SVal α) (oi : Option (List Nat))
    (h : add_args rs = .ok (v, oi)) : Inv ndim v oi := by
  match rs, h with
  | [x], h =>
    obtain ⟨xv, xoi⟩ := x
    simp only [add_args, Except.ok.injEq, Prod.mk.injEq] at h
    obtain ⟨hv, hoi⟩ := h
    rw [← hv, ← hoi]
    exact hinv (xv, xoi) (by simp)
  | first :: second :: rest, h =>
    simp only [add_args] at h
    by_cases hall : ((first :: second :: rest).all (fun r => r.2.isNone)) = true
    · rw [if_pos hall] at h
      have hf1 : first.2 = none := by
        have := List.all_eq_true.1 hall first (by simp)
        simpa [Option.isNone_iff_eq_none] using this
      have hfs : ∃ s, first.1 = .scalar s := by
        cases hfv : first.1 with
        | scalar s => exact ⟨s, rfl⟩
        | arr A =>
          have := hinv first (by simp)
          rw [hfv, hf1] at this
          rcases this with ⟨l, hl, -, -⟩
          exact absurd hl (by simp)
      obtain ⟨s, hs⟩ := hfs
      cases hsum : sumScalars first.1 ((second :: rest).map (fun r => r.1)) with
      | error e => rw [hsum] at h; simp [Except.map] at h
      | ok w =>
        rw [hsum] at h
        simp only [Except.map, Except.ok.injEq, Prod.mk.injEq] at h
        obtain ⟨hwv, hoi⟩ := h
        rw [hs] at hsum
        obtain ⟨s2, hw⟩ := sumScalars_scalar _ s w hsum
        rw [← hwv, ← hoi, hw, hf1]
        exact Or.inl rfl
    · rw [if_neg hall] at h
      obtain ⟨ho, hsh, harr⟩ := addLoop_inv first.2 (second :: rest) first.1 v oi h
      subst ho
      have hfinv := hinv first (by simp)
      cases hv : v with
      | scalar s =>
        cases hfv : first.1 with
        | scalar s0 => rw [hfv] at hfinv; exact hfinv
        | arr A0 =>
          rw [hfv] at hfinv
          rcases hfinv with ⟨l, hl, hlne, hshA⟩
          rw [hv, hfv] at hsh
          have : ([] : List Nat) = A0.shape := hsh
          rw [hshA] at this
          cases hll : l with
          | nil => exact absurd hll hlne
          | cons c cs =>
            rw [hll] at this
            simp [List.replicate_succ] at this
      | arr B =>
        obtain ⟨A0, hA0⟩ := harr B hv
        rw [hA0] at hfinv
        rcases hfinv with ⟨l, hl, hlne, hshA⟩
        rw [hv, hA0] at hsh
        exact ⟨l, hl, hlne, by rw [← hshA]; exact hsh⟩

end Autofd

namespace Autofd

variable {α : Type} [CommRing α]

theorem evalI_inv_main (ndim : Nat) :
    ∀ (N : Nat),
      (∀ (e : Ex α), sizeOf e ≤ N → wfB ndim e = true →
        ∀ (v : SVal α) (oi : Option (List Nat)),
          evaluate_Indexed_expression e = .ok (v, oi) → Inv ndim v oi) ∧
      (∀ (args : List (Ex α)), sizeOf args ≤ N → wfB_list ndim args = true →
        ∀ rs, eval_list args = .ok rs → ∀ r ∈ rs, Inv ndim r.1 r.2) := by
  intro N
  induction N with
  | zero =>
    constructor
    · intro e he
      exfalso
      cases e <;> simp_arith at he
    · intro args ha
      exfalso
      cases args <;> simp_arith at ha
  | succ N ihN =>
    obtain ⟨ihE, ihL⟩ := ihN
    constructor
    · intro e he hwf v oi h
      cases e with
      | scal s =>
        simp only [evaluate_Indexed_expression, Except.ok.injEq, Prod.mk.injEq] at h
        obtain ⟨hv, hoi⟩ := h
        rw [← hv, ← hoi]
        exact Or.inl rfl
      | idx inds A =>
        simp only [evaluate_Indexed_expression] at h
        simp only [wfB, Bool.and_eq_true, beq_iff_eq] at hwf
        obtain ⟨hne0, hshape⟩ := hwf
        have hne : inds ≠ [] := by
          cases inds with
          | nil => simp at hne0
          | cons c cs => simp
        obtain ⟨w, hw, hwInv⟩ := contract_rr ndim inds A hshape hne
        rw [hw] at h
        simp only [Bind.bind, Except.bind, Except.ok.injEq, Prod.mk.injEq] at h
        obtain ⟨hv, hoi⟩ := h
        rw [← hv, ← hoi]
        exact hwInv
      | mul args =>
        simp only [evaluate_Indexed_expression] at h
        cases hl : eval_list (α := α) args with
        | error e2 => rw [hl] at h; simp [Bind.bind, Except.bind] at h
        | ok rs =>
          rw [hl] at h
          simp only [Bind.bind, Except.bind] at h
          have hargs : sizeOf args ≤ N := by simp_arith at he; omega
          have hwargs : wfB_list ndim args = true := by simpa [wfB] using hwf
          exact evaluate_MUL_inv ndim rs (ihL args hargs hwargs rs hl) v oi h
      | add args =>
        simp only [evaluate_Indexed_expression] at h
        cases hl : eval_list (α := α) args with
        | error e2 => rw [hl] at h; simp [Bind.bind, Except.bind] at h
        | ok rs =>
          rw [hl] at h
          simp only [Bind.bind, Except.bind] at h
          have hargs : sizeOf args ≤ N := by simp_arith at he; omega
          have hwargs : wfB_list ndim args = true := by simpa [wfB] using hwf
          exact add_args_inv ndim rs (ihL args hargs hwargs rs hl) v oi h
      | pow b e2 hIdx =>
        simp only [evaluate_Indexed_expression] at h
        cases hIdx with
        | true => simp at h
        | false =>
          simp only [Bool.false_eq_true, if_false] at h
          cases hb : evaluate_Indexed_expression b with
          | error e3 => rw [hb] at h; simp [Bind.bind, Except.bind] at h
          | ok p =>
            obtain ⟨v0, oi0⟩ := p
            rw [hb] at h
            simp only [Bind.bind, Except.bind] at h
            have hbsize : sizeOf b ≤ N := by simp_arith at he; omega
            have hbwf : wfB ndim b = true := by simpa [wfB] using hwf
            have hbInv := (ihE b hbsize hbwf v0 oi0 hb : Inv ndim v0 oi0)
            cases oi0 with
            | none =>
              simp only [Except.ok.injEq, Prod.mk.injEq] at h
              obtain ⟨hv, hoi⟩ := h
              rw [← hv, ← hoi]
              cases v0 with
              | scalar s => exact Or.inl rfl
              | arr A =>
                rcases hbInv with ⟨l, hl, -, -⟩
                exact absurd hl (by simp)
            | some ll =>
              simp only [] at h
              by_cases he2 : e2 = 2
              · rw [if_pos he2] at h
                cases v0 with
                | scalar s =>
                  have hll : ll = [] := by
                    rcases hbInv with h9 | h9
                    · exact absurd h9 (by simp)
                    · exact Option.some.inj h9
                  subst hll
                  rw [show svalPow2 (SVal.scalar s) = SVal.scalar (s ^ 2) from rfl,
                    contract_scalar_nil] at h
                  simp only [Bind.bind, Except.bind, Except.ok.injEq, Prod.mk.injEq] at h
                  obtain ⟨hv, hoi⟩ := h
                  rw [← hv, ← hoi]
                  exact Or.inr rfl
                | arr A =>
                  rcases hbInv with ⟨l, hl, hlne, hsh⟩
                  have hle : ll = l := Option.some.inj hl
                  subst hle
                  obtain ⟨s3, hs3⟩ := contract_all_scalar ndim ll
                    ⟨A.shape, fun ix => A.data ix ^ 2⟩ hsh hlne
                  rw [show svalPow2 (SVal.arr A) =
                      SVal.arr ⟨A.shape, fun ix => A.data ix ^ 2⟩ from rfl, hs3] at h
                  simp only [Bind.bind, Except.bind, Except.ok.injEq, Prod.mk.injEq] at h
                  obtain ⟨hv, hoi⟩ := h
                  rw [← hv, ← hoi]
                  exact Or.inr rfl
              · rw [if_neg he2] at h
                simp at h
    · intro args ha hwf rs h
      cases args with
      | nil =>
        simp only [eval_list, Except.ok.injEq] at h
        rw [← h]
        intro r hr
        simp at hr
      | cons x xs =>
        simp only [eval_list] at h
        cases hx : evaluate_Indexed_expression x with
        | error e2 => rw [hx] at h; simp [Bind.bind, Except.bind] at h
        | ok r0 =>
          rw [hx] at h
          simp only [Bind.bind, Except.bind] at h
          cases hxs : eval_list (α := α) xs with
          | error e2 => rw [hxs] at h; simp [Bind.bind, Except.bind] at h
          | ok rest =>
            rw [hxs] at h
            simp only [Bind.bind, Except.bind, Except.ok.injEq] at h
            rw [← h]
            have ha2 := ha
            simp_arith at ha2
            simp only [wfB_list, Bool.and_eq_true] at hwf
            intro r hr
            rcases List.mem_cons.1 hr with rfl | hr2
            · exact ihE x (by omega) hwf.1 r.1 r.2 hx
            · exact ihL xs (by omega) hwf.2 rest hxs r hr2

theorem evalI_inv (ndim : Nat) (e : Ex α) (hwf : wfB ndim e = true) (v : SVal α)
    (oi : Option (List Nat)) (h : evaluate_Indexed_expression e = .ok (v, oi)) :
    Inv ndim v oi :=
  (evalI_inv_main ndim (sizeOf e)).1 e le_rfl hwf v oi h

theorem evaluate_expression_ok (e : Ex α) (v : SVal α) (oi : Option (List Nat))
    (h : evaluate_expression e = .ok (v, oi)) :
    evaluate_Indexed_expression e = .ok (v, oi) := by
  simp only [evaluate_expression] at h
  cases hg : get_index_structure (α := α) e with
  | error e2 => rw [hg] at h; simp [Bind.bind, Except.bind] at h
  | ok s =>
    rw [hg] at h
    simpa [Bind.bind, Except.bind] using h

end Autofd

namespace Autofd

variable {α : Type} [CommRing α]

theorem allIx_length : ∀ (shape : List Nat), (allIx shape).length = shape.prod := by
  intro shape
  induction shape with
  | nil => rfl
  | cons n rest ih =>
    simp only [allIx, List.length_flatMap, List.prod_cons]
    have hmap : (List.range n).map (List.length ∘ fun k => (allIx rest).map (fun ix => k :: ix)) =
        (List.range n).map (Function.const Nat (allIx rest).length) := by
      apply List.map_congr_left
      intro k _
      simp
    rw [hmap, List.map_const, List.sum_replicate, List.length_range, smul_eq_mul, ih]

theorem allIx_mem : ∀ (shape : List Nat) (ix : List Nat), ix ∈ allIx shape →
    ix.length = shape.length ∧ ∀ p ∈ ix.zip shape, p.1 < p.2 := by
  intro shape
  induction shape with
  | nil =>
    intro ix hix
    simp only [allIx, List.mem_singleton] at hix
    subst hix
    exact ⟨rfl, fun p hp => by simp at hp⟩
  | cons n rest ih =>
    intro ix hix
    simp only [allIx, List.mem_flatMap] at hix
    obtain ⟨k, hk, hmem⟩ := hix
    rcases List.mem_map.1 hmem with ⟨ix2, hix2, rfl⟩
    obtain ⟨hlen, hbnd⟩ := ih ix2 hix2
    refine ⟨by simp [hlen], ?_⟩
    intro p hp
    simp only [List.zip_cons_cons, List.mem_cons] at hp
    rcases hp with rfl | hp2
    · exact List.mem_range.1 hk
    · exact hbnd p hp2

theorem getItem_replicate (ndim k : Nat) (B : NArr α) (hsh : B.shape = List.replicate k ndim)
    (ix : List Nat) (hlen : ix.length = k) (hbnd : ∀ p ∈ ix.zip B.shape, p.1 < p.2) :
    getItem (.arr B) ix = .ok (B.data ix) := by
  simp only [getItem]
  rw [if_pos (by rw [hsh, List.length_replicate, hlen])]
  rw [if_pos ?hb]
  case hb =>
    rw [List.all_eq_true]
    intro p hp
    exact decide_eq_true (hbnd p hp)

theorem emitRows_ok (A : NArr α) (r : SVal α) :
    ∀ (ixs : List (List Nat)), (∀ ix ∈ ixs, ∃ b, getItem r ix = .ok b) →
      ∃ es, emitRows A r ixs = .ok es ∧ es.length = ixs.length := by
  intro ixs
  induction ixs with
  | nil => intro _; exact ⟨[], rfl, rfl⟩
  | cons ix rest ih =>
    intro hall
    obtain ⟨b, hb⟩ := hall ix (by simp)
    obtain ⟨es, hes, hlen⟩ := ih (fun ix2 h2 => hall ix2 (by simp [h2]))
    refine ⟨(.scalar (A.data ix), .scalar b) :: es, ?_, by simp [hlen]⟩
    simp only [emitRows, hb, hes, Bind.bind, Except.bind]

theorem emitRows_error (A : NArr α) (r : SVal α) (ix : List Nat)
    (rest : List (List Nat)) (e : Err) (h : getItem r ix = .error e) :
    emitRows A r (ix :: rest) = .error e := by
  simp only [emitRows, h, Bind.bind, Except.bind]

/-- Claim C1: for an equation whose two sides evaluate with matching
free-index counts `k`, the expansion driver emits exactly `ndim ^ k`
explicit scalar equations (exactly one when both sides are scalar). -/
theorem claim1_expansion_count (ndim k : Nat)
    (hnd : ndim = 1 ∨ ndim = 2 ∨ ndim = 3) (l r : Ex α)
    (hwl : wfB ndim l = true) (hwr : wfB ndim r = true)
    (hsl : sigLenOf (evaluate_expression l) = some k)
    (hsr : sigLenOf (evaluate_expression r) = some k) :
    ∃ es, expandEqn l r = .ok es ∧ es.length = ndim ^ k := by
  cases hL : evaluate_expression l with
  | error e => rw [hL] at hsl; simp [sigLenOf] at hsl
  | ok pl =>
    cases hR : evaluate_expression r with
    | error e => rw [hR] at hsr; simp [sigLenOf] at hsr
    | ok pr =>
      obtain ⟨vl, ol⟩ := pl
      obtain ⟨vr, orr⟩ := pr
      rw [hL] at hsl
      rw [hR] at hsr
      simp only [sigLenOf, Option.some.injEq] at hsl hsr
      have hIl : Inv ndim vl ol :=
        evalI_inv ndim l hwl vl ol (evaluate_expression_ok l vl ol hL)
      have hIr : Inv ndim vr orr :=
        evalI_inv ndim r hwr vr orr (evaluate_expression_ok r vr orr hR)
      have hexp : expandEqn l r = assemble vl vr := by
        simp only [expandEqn, hL, hR, Bind.bind, Except.bind]
      cases hvl : vl with
      | scalar s =>
        refine ⟨[(.scalar s, vr)], by rw [hexp, hvl]; rfl, ?_⟩
        have hk0 : k = 0 := by
          rw [hvl] at hIl
          rcases hIl with h9 | h9 <;> rw [h9] at hsl <;> simpa using hsl.symm
        rw [hk0, pow_zero]
        rfl
      | arr A =>
        rw [hvl] at hIl
        rcases hIl with ⟨la, hla, hlane, hsha⟩
        have hk : la.length = k := by
          rw [hla] at hsl
          simpa using hsl
        have hkpos : k ≠ 0 := by
          intro h0
          exact hlane (List.length_eq_zero.1 (by omega))
        cases hvr : vr with
        | scalar s2 =>
          exfalso
          rw [hvr] at hIr
          rcases hIr with h9 | h9 <;> rw [h9] at hsr <;> simp at hsr <;> try omega
        | arr B =>
          rw [hvr] at hIr
          rcases hIr with ⟨lb, hlb, hlbne, hshb⟩
          have hkb : lb.length = k := by
            rw [hlb] at hsr
            simpa using hsr
          have hshb2 : B.shape = List.replicate k ndim := by rw [hshb, hkb]
          have hsha2 : A.shape = List.replicate k ndim := by rw [hsha, hk]
          have hall : ∀ ix ∈ allIx A.shape, ∃ b, getItem (SVal.arr B) ix = .ok b := by
            intro ix hix
            obtain ⟨hlen, hbnd⟩ := allIx_mem A.shape ix hix
            refine ⟨B.data ix, getItem_replicate ndim k B hshb2 ix ?_ ?_⟩
            · rw [hlen, hsha2, List.length_replicate]
            · intro p hp
              have hzz : ix.zip B.shape = ix.zip A.shape := by rw [hshb2, hsha2]
              rw [hzz] at hp
              exact hbnd p hp
          obtain ⟨es, hes, heslen⟩ := emitRows_ok A (.arr B) (allIx A.shape) hall
          refine ⟨es, ?_, ?_⟩
          · rw [hexp, hvl, hvr]
            exact hes
          · rw [heslen, hsha2, allIx_length, List.prod_replicate]

/-- Witness for claim C1: `u_i = v_i` at `ndim = 2` (`k = 1`) expands to
exactly two scalar equations. -/
theorem claim1_expansion_count_witness :
    sigLenOf (evaluate_expression
      (Ex.idx [0] (⟨[2], fun _ => (1:ℤ)⟩ : NArr ℤ))) = some 1 ∧
    ∃ es, expandEqn (Ex.idx [0] (⟨[2], fun _ => (1:ℤ)⟩ : NArr ℤ))
        (Ex.idx [0] (⟨[2], fun _ => (2:ℤ)⟩ : NArr ℤ)) = .ok es ∧ es.length = 2 ^ 1 := by
  refine ⟨rfl, ?_⟩
  exact claim1_expansion_count 2 1 (Or.inr (Or.inl rfl))
    (Ex.idx [0] ⟨[2], fun _ => (1:ℤ)⟩) (Ex.idx [0] ⟨[2], fun _ => (2:ℤ)⟩)
    rfl rfl rfl rfl

/-- Claim C5 (amended): after evaluation, a signature-length mismatch with an
array-valued lhs makes the assembly loop fail with an indexing error before
any equation list is returned; with a scalar lhs no shape check happens and
exactly one equation is emitted whatever the rhs is. -/
theorem claim5_amended (ndim : Nat) (hnd : 1 ≤ ndim) (l r : Ex α)
    (hwl : wfB ndim l = true) (hwr : wfB ndim r = true) :
    (∀ (A : NArr α) (ol : Option (List Nat)) (vr : SVal α) (orr : Option (List Nat)),
        evaluate_expression l = .ok (.arr A, ol) →
        evaluate_expression r = .ok (vr, orr) →
        (ol.getD []).length ≠ (orr.getD []).length →
        ∃ e2, expandEqn l r = .error e2) ∧
    (∀ (s : α) (ol : Option (List Nat)) (vr : SVal α) (orr : Option (List Nat)),
        evaluate_expression l = .ok (.scalar s, ol) →
        evaluate_expression r = .ok (vr, orr) →
        expandEqn l r = .ok [(.scalar s, vr)]) := by
  constructor
  · intro A ol vr orr hL hR hne
    have hIl : Inv ndim (SVal.arr A) ol :=
      evalI_inv ndim l hwl _ ol (evaluate_expression_ok l _ ol hL)
    have hIr : Inv ndim vr orr :=
      evalI_inv ndim r hwr vr orr (evaluate_expression_ok r vr orr hR)
    rcases hIl with ⟨la, hla, hlane, hsha⟩
    have hexp : expandEqn l r = assemble (.arr A) vr := by
      simp only [expandEqn, hL, hR, Bind.bind, Except.bind]
    have hpos : 0 < (allIx A.shape).length := by
      rw [allIx_length, hsha, List.prod_replicate]
      exact pow_pos (by omega) _
    obtain ⟨ix0, rest, hsplit⟩ : ∃ ix0 rest, allIx A.shape = ix0 :: rest := by
      cases hck : allIx A.shape with
      | nil => rw [hck] at hpos; simp at hpos
      | cons a as => exact ⟨a, as, rfl⟩
    have hlen0 : ix0.length = la.length := by
      have := (allIx_mem A.shape ix0 (by rw [hsplit]; simp)).1
      rw [this, hsha, List.length_replicate]
    cases hvr : vr with
    | scalar s2 =>
      refine ⟨.notSubscriptable, ?_⟩
      rw [hexp, hvr]
      simp only [assemble]
      rw [hsplit]
      exact emitRows_error A _ ix0 rest _ rfl
    | arr B =>
      rw [hvr] at hIr
      rcases hIr with ⟨lb, hlb, hlbne, hshb⟩
      refine ⟨.wrongRank, ?_⟩
      rw [hexp, hvr]
      simp only [assemble]
      rw [hsplit]
      apply emitRows_error
      simp only [getItem]
      have hcon : ¬(ix0.length = B.shape.length) := by
        rw [hshb, List.length_replicate, hlen0]
        rw [hla, hlb] at hne
        simpa using hne
      rw [if_neg hcon]
  · intro s ol vr orr hL hR
    simp only [expandEqn, hL, hR, Bind.bind, Except.bind]
    rfl

/-- Witness for claim C5 (amended): array lhs `u_i` against scalar rhs `3`
at `ndim = 2` fails with an indexing error. -/
theorem claim5_amended_witness :
    ∃ e2, expandEqn (Ex.idx [0] (⟨[2], fun _ => (0:ℤ)⟩ : NArr ℤ))
        (Ex.scal (3 : ℤ)) = .error e2 := by
  exact (claim5_amended 2 (by omega) (Ex.idx [0] ⟨[2], fun _ => (0:ℤ)⟩)
    (Ex.scal 3) rfl rfl).1 ⟨[2], fun _ => (0:ℤ)⟩ (some [0]) (.scalar 3) none
    rfl rfl (by decide)

end Autofd
